import Mathlib

/-!
Shallow embedding of the symbol-resolution core of oprofile's oprofpp
(`pp/op_bfd.cpp`): symbol-table extraction, filtering, stable sorting,
size computation, address-collision deduplication, exclusion, address
range validation and source-line resolution.

Machine integers: the source computes sample offsets, symbol spans and
section offsets in 32-bit unsigned variables (`u32`); we model those
quantities as natural numbers reduced modulo `U32 = 2^32` at exactly the
points where the source stores into a `u32`.  `bfd_vma` quantities
(virtual addresses) are modelled as plain naturals.

External bfd data (sections, raw symbols, the `bfd_find_nearest_line`
lookup) is modelled as explicit records and an explicit lookup function,
matching the fields the source reads.
-/

/-- 2^32, the modulus of the source's `u32` arithmetic. -/
def U32 : Nat := 4294967296

/-- 32-bit unsigned subtraction: `(a - b) mod 2^32`. -/
def usub32 (a b : Nat) : Nat := (a % U32 + (U32 - b % U32)) % U32

/-- An output section of the bfd image, with the fields `op_bfd.cpp`
reads: name, the SEC_CODE / SEC_ALLOC flag bits, vma, file position and
`bfd_section_size`. -/
structure BfdSection where
  name : String
  sec_code : Bool
  sec_alloc : Bool
  vma : Nat
  filepos : Nat
  size : Nat
deriving DecidableEq, Inhabited, Repr

/-- A raw bfd symbol (`asymbol`): name, value (offset inside its
section) and owning section. -/
structure Asymbol where
  name : String
  value : Nat
  sec : BfdSection
deriving DecidableEq, Inhabited, Repr

/-- `struct op_bfd_symbol`: a reference to the raw symbol, the computed
virtual address `value + section vma`, and the computed byte size. -/
structure OpBfdSymbol where
  symbol : Asymbol
  vma : Nat
  size : Nat
deriving DecidableEq, Inhabited, Repr

/-- The fixed list of never-interesting symbol names (`boring_symbols`
in `op_bfd.cpp`). -/
def boring_symbols : List String := ["gcc2_compiled.", "_init"]

/-- The check `sym->name[0] == '.' && sym->name[1] == 'L'`: the name
begins with the two characters `.L`. -/
def starts_dotL (s : String) : Bool :=
  match s.data with
  | '.' :: 'L' :: _ => true
  | _ => false

/-- `interesting_symbol` from `op_bfd.cpp`: a raw symbol is kept iff its
section has the SEC_CODE flag, its name is non-empty, its name does not
begin with `.L`, and its name is none of the `boring_symbols`. -/
def interesting_symbol (sym : Asymbol) : Bool :=
  if sym.sec.sec_code = false then false
  else if sym.name = "" then false
  else if starts_dotL sym.name then false
  else if boring_symbols.contains sym.name then false
  else true

/-- Modelled from the spec: `is_excluded_symbol` is not part of the
source excerpt (it lives outside `op_bfd.cpp`); the spec states that the
exclusion list is a caller-supplied list of symbol names matched by
exact string comparison. -/
def is_excluded_symbol (excluded : List String) (name : String) : Bool :=
  excluded.contains name

/-- The comparator `symcomp`: strict less-than on the computed vma. -/
def symcomp (a b : OpBfdSymbol) : Bool := decide (a.vma < b.vma)

/-- Insertion of one element into an already sorted run, placing `x`
before the first element strictly greater than it (so after every
element with an equal vma, preserving extraction order of ties). -/
def insert_sym (x : OpBfdSymbol) : List OpBfdSymbol → List OpBfdSymbol
  | [] => [x]
  | y :: ys => if symcomp x y then x :: y :: ys else y :: insert_sym x ys

/-- `std::stable_sort(syms.begin(), syms.end(), symcomp)`: modelled as
left-to-right insertion sort, which produces the unique reordering that
is non-decreasing on vma and keeps the relative order of entries with
equal vma - exactly the contract of a stable sort under `symcomp`. -/
def stable_sort_syms (l : List OpBfdSymbol) : List OpBfdSymbol :=
  l.foldl (fun acc x => insert_sym x acc) []

/-- The extraction loop of `get_symbols`: keep the raw symbols passing
`interesting_symbol`, each paired with vma `value + section vma` and a
size of 0 (sizes are filled in later). -/
def extract_symbols (bfd_syms : List Asymbol) : List OpBfdSymbol :=
  (bfd_syms.filter interesting_symbol).map
    (fun s => { symbol := s, vma := s.value + s.sec.vma, size := 0 })

/-- `op_bfd::symbol_size`: `start` is the symbol's section file position
plus its value (stored in a `u32`); the end is the next entry's
`value + filepos` (also `u32`), or `nr_samples` (the image file size)
for the last entry; the size is the `u32` difference. -/
def symbol_size (nr_samples : Nat) (syms : List OpBfdSymbol) (sym_idx : Nat) : Nat :=
  let sym := (syms.getD sym_idx default).symbol
  let start := (sym.sec.filepos + sym.value) % U32
  let e :=
    if sym_idx = syms.length - 1 then nr_samples % U32
    else
      let nxt := (syms.getD (sym_idx + 1) default).symbol
      (nxt.value + nxt.sec.filepos) % U32
  usub32 e start

/-- The size-filling loop of `get_symbols`:
`for i: syms[i].size = symbol_size(i)` (the computation only reads the
`symbol` field of neighbours, so the in-place update order is
irrelevant). -/
def set_sizes (nr_samples : Nat) (syms : List OpBfdSymbol) : List OpBfdSymbol :=
  (List.range syms.length).map
    (fun i => { syms.getD i default with size := symbol_size nr_samples syms i })

/-- The body of the deduplication scan: `a` is the last kept entry; an
entry with the same vma as `a` is erased (and the scan re-checks at the
same position), otherwise the entry is kept and becomes the new
reference. -/
def dedup_from (a : OpBfdSymbol) : List OpBfdSymbol → List OpBfdSymbol
  | [] => []
  | b :: rest => if b.vma = a.vma then dedup_from a rest else b :: dedup_from b rest

/-- The duplicate-vma erase loop of `get_symbols` (Fix #526098): delete
the second entry of every adjacent pair sharing a vma, re-checking at
the same index after each erase. -/
def dedup_vma : List OpBfdSymbol → List OpBfdSymbol
  | [] => []
  | a :: rest => a :: dedup_from a rest

/-- The exclusion loop of `get_symbols`: erase every entry whose name is
on the exclusion list, keep the rest in order. -/
def exclude_symbols (excluded : List String) (syms : List OpBfdSymbol) : List OpBfdSymbol :=
  syms.filter (fun s => !is_excluded_symbol excluded s.symbol.name)

/-- `op_bfd::get_symbols`: filter the raw symbols, stable-sort by vma,
compute sizes on the sorted sequence, erase adjacent duplicate vmas,
then apply the exclusion list. -/
def get_symbols (bfd_syms : List Asymbol) (nr_samples : Nat)
    (excluded : List String) : List OpBfdSymbol :=
  exclude_symbols excluded
    (dedup_vma (set_sizes nr_samples (stable_sort_syms (extract_symbols bfd_syms))))

/-- `op_bfd::sym_offset`: subtract the section file position, then the
symbol value, from the raw sample offset, all in `u32` arithmetic; no
range check of any kind. -/
def sym_offset (syms : List OpBfdSymbol) (sym_idx : Nat) (num : Nat) : Nat :=
  let s := (syms.getD sym_idx default).symbol
  usub32 (usub32 num s.sec.filepos) s.value

/-- The `u32` file-offset span start of a table entry:
`sym->value + sym->section->filepos` as computed in
`op_bfd::get_symbol_range`. -/
def span_start (s : OpBfdSymbol) : Nat := (s.symbol.value + s.symbol.sec.filepos) % U32

/-- The `u32` span end of a table entry: `start + size`. -/
def span_end (s : OpBfdSymbol) : Nat := (span_start s + s.size) % U32

/-- `op_bfd::get_symbol_range`: compute `start` and `end` for the entry,
then `exit(EXIT_FAILURE)` (modelled as `none`) when
`start >= nr_samples + sect_offset`, when `end > nr_samples + sect_offset`,
or when `start > end`; otherwise yield the pair. -/
def get_symbol_range (nr_samples sect_offset : Nat) (syms : List OpBfdSymbol)
    (sym_idx : Nat) : Option (Nat × Nat) :=
  let s := syms.getD sym_idx default
  let start := span_start s
  let e := span_end s
  let limit := (nr_samples + sect_offset) % U32
  if limit ≤ start then none
  else if limit < e then none
  else if e < start then none
  else some (start, e)

/-- `op_bfd::symbol_index`: linear scan for the first entry whose name
compares equal; `none` models `nil_symbol_index`. -/
def symbol_index (syms : List OpBfdSymbol) (name : String) : Option Nat :=
  match syms with
  | [] => none
  | s :: rest =>
    if s.symbol.name = name then some 0 else (symbol_index rest name).map (· + 1)

/-- The outputs of one `bfd_find_nearest_line` call: the boolean result,
and the reported filename, function name and line number (a null
`char*` is `none`). -/
structure FindRes where
  found : Bool
  filename : Option String
  functionname : Option String
  line : Nat
deriving DecidableEq, Inhabited, Repr

/-- The acceptance of the initial lookup in `op_bfd::get_linenr`
(lines processing `ret`): a null filename or a false return resets the
result to a failure; a non-null function name differing from the queried
symbol's name also forces failure (Fix #484660). -/
def accept_initial (r : FindRes) (name : String) : Bool :=
  let ret1 := if r.filename = none ∨ r.found = false then false else r.found
  match r.functionname with
  | some g => if g ≠ name then false else ret1
  | none => ret1

/-- A probe of the prologue workaround succeeds when the call returned
true with a non-zero line number and a function name equal (by `strcmp`)
to the queried symbol's name. -/
def probe_hit (r : FindRes) (name : String) : Bool :=
  decide (r.found = true ∧ r.line ≠ 0 ∧ r.functionname = some name)

/-- The forward scan `for (i = 1; i < max_search; ++i)` of the prologue
workaround in `op_bfd::get_linenr`: re-query the lookup at `pc + i`,
returning at the first accepted probe; `none` when the window is
exhausted. -/
def probe_loop (find : Nat → FindRes) (name : String) (pc max_search i : Nat) :
    Option FindRes :=
  if h : i < max_search then
    let r := find (pc + i)
    if probe_hit r name then some r
    else probe_loop find name pc max_search (i + 1)
  else none
termination_by max_search - i
decreasing_by omega

/-- `op_bfd::get_linenr`, with the `bfd_find_nearest_line` metadata
lookup passed in as a pure function `find` of the queried pc (the bfd
handle, section and symbol table arguments of the real call are fixed
for one query).  The result triple is the returned boolean and the
`filename` / `linenr` out-parameters (a null `char*` is `none`).
When the initial line number is 0, the bounded forward scan runs; if it
wins, its probe's outputs are returned, otherwise the source re-issues
the lookup at the original pc - overwriting the out-parameters with the
original call's raw outputs - and returns the pre-workaround boolean. -/
def get_linenr (find : Nat → FindRes) (syms : List OpBfdSymbol) (sym_idx : Nat)
    (offset : Nat) : Bool × Option String × Nat :=
  let s := (syms.getD sym_idx default).symbol
  if s.sec.sec_alloc = false then (false, none, 0)
  else
    let pc := sym_offset syms sym_idx offset + s.value
    if s.sec.size ≤ pc then (false, none, 0)
    else
      let r := find pc
      let ret2 := accept_initial r s.name
      let fn1 : Option String :=
        if r.filename = none ∨ r.found = false then some "" else r.filename
      let ln1 : Nat := if r.filename = none ∨ r.found = false then 0 else r.line
      if ln1 = 0 then
        let max_search := if s.sec.size < pc + 16 then s.sec.size - pc else 16
        match probe_loop find s.name pc max_search 1 with
        | some pr => (pr.found, pr.filename, pr.line)
        | none => (ret2, r.filename, r.line)
      else (ret2, fn1, ln1)

/-- `bfd_get_section_by_name`: the first section bearing the name, if
any. -/
def bfd_get_section_by_name (sections : List BfdSection) (name : String) :
    Option BfdSection :=
  sections.find? (fun s => decide (s.name = name))

/-- The section-offset computation of `op_bfd::open_bfd_image` /
`op_bfd::op_bfd`: `sect_offset` starts at 0; for a kernel image it is
overwritten with `sect->filepos` where
`sect = bfd_get_section_by_name(ibfd, ".text")`.  The source performs
no check that the lookup succeeded: when no `.text` section exists it
dereferences the null section pointer.  That undefined dereference has
no value to model, so the result is an `Option` and `none` marks the
crash (there is no missing-section error path in the source). -/
def open_bfd_sect_offset (sections : List BfdSection) (is_kernel : Bool) :
    Option Nat :=
  if is_kernel then (bfd_get_section_by_name sections ".text").map (fun s => s.filepos)
  else some 0

/-! Concrete fixtures used by counterexamples and witnesses. -/

/-- A code section at file position 0. -/
def secA : BfdSection :=
  { name := ".text", sec_code := true, sec_alloc := true, vma := 0, filepos := 0, size := 48 }

/-- Raw symbol at vma 16 (first in extraction order). -/
def symA : Asymbol := { name := "a", value := 16, sec := secA }

/-- Raw symbol colliding with `symA` at vma 16 (second in extraction order). -/
def symB : Asymbol := { name := "b", value := 16, sec := secA }

/-- Raw symbol at vma 32. -/
def symC : Asymbol := { name := "c", value := 32, sec := secA }

/-- A 4-byte code section for the range-check boundary case. -/
def sec4 : BfdSection :=
  { name := ".text", sec_code := true, sec_alloc := true, vma := 0, filepos := 0, size := 4 }

/-- A table entry spanning the whole 4-byte image: start 0, end 4. -/
def entry4 : OpBfdSymbol :=
  { symbol := { name := "s", value := 0, sec := sec4 }, vma := 0, size := 4 }

/-- A section at file position 4 for the wrap-around offset example. -/
def secW : BfdSection :=
  { name := ".text", sec_code := true, sec_alloc := true, vma := 0, filepos := 4, size := 64 }

/-- An entry whose section file position plus value is 12. -/
def entryW : OpBfdSymbol :=
  { symbol := { name := "w", value := 8, sec := secW }, vma := 8, size := 4 }

/-- A non-code data section (no `.text` name). -/
def sec_data : BfdSection :=
  { name := ".data", sec_code := false, sec_alloc := true, vma := 0, filepos := 256, size := 16 }

/-- A kernel `.text` section at file position 8192. -/
def sec_text_k : BfdSection :=
  { name := ".text", sec_code := true, sec_alloc := true, vma := 0, filepos := 8192, size := 4096 }

/-- Entry named `q` inside `secA`, used by the line-resolution examples;
a raw sample offset of 16 maps to pc 16, inside the section. -/
def entryQ : OpBfdSymbol :=
  { symbol := { name := "q", value := 16, sec := secA }, vma := 16, size := 4 }

/-- A lookup reporting success with a filename, no function name, line 3. -/
def find_c6 : Nat → FindRes :=
  fun _ => { found := true, filename := some "f", functionname := some "g", line := 0 }

/-- A lookup reporting success with a filename, a differing function
name, and a non-zero line number. -/
def find_c9 : Nat → FindRes :=
  fun _ => { found := true, filename := some "f", functionname := some "g", line := 7 }

/-- A lookup reporting no function name at all, with line 3. -/
def find_nofn : Nat → FindRes :=
  fun _ => { found := true, filename := some "f", functionname := none, line := 3 }

/-- A lookup that yields line 0 at the queried pc 16 and an accepting
probe result at pc 17. -/
def find_probe : Nat → FindRes :=
  fun a =>
    if a = 17 then { found := true, filename := some "p", functionname := some "q", line := 5 }
    else { found := true, filename := some "f", functionname := some "q", line := 0 }

/-! Helper lemmas. -/

theorem list_getD_eq {α : Type} (l : List α) (i : Nat) (d : α) (h : i < l.length) :
    l.getD i d = l[i] := by
  simp [List.getD_eq_getElem?_getD, List.getElem?_eq_getElem h]

theorem set_sizes_length (nr : Nat) (q : List OpBfdSymbol) :
    (set_sizes nr q).length = q.length := by
  simp [set_sizes]

theorem set_sizes_getD (nr : Nat) (q : List OpBfdSymbol) (i : Nat) (d : OpBfdSymbol)
    (h : i < q.length) :
    (set_sizes nr q).getD i d = { q.getD i default with size := symbol_size nr q i } := by
  have hlen : i < (set_sizes nr q).length := by rw [set_sizes_length]; exact h
  rw [list_getD_eq _ _ _ hlen]
  simp [set_sizes]

theorem add_usub32 (a b : Nat) : (a % U32 + usub32 b (a % U32)) % U32 = b % U32 := by
  simp only [usub32, U32]
  omega

/-! Claim theorems. -/

/-- Claim C3: the candidate filter keeps a raw symbol iff its section is
flagged as code, its name is non-empty, its name does not begin with
`.L`, and its name is none of the boring markers; in particular a
symbol named `.Lfoo` or `gcc2_compiled.` is always dropped, and a
symbol in a non-code section is dropped regardless of name.  The filter
is a pure function of the single symbol, so its decision is independent
of the other symbols and of extraction order. -/
theorem c3_filter_exact :
    (∀ sym : Asymbol,
      interesting_symbol sym = true ↔
        (sym.sec.sec_code = true ∧ sym.name ≠ "" ∧ starts_dotL sym.name = false ∧
          sym.name ∉ boring_symbols)) ∧
    (∀ (v : Nat) (s : BfdSection),
      interesting_symbol { name := ".Lfoo", value := v, sec := s } = false) ∧
    (∀ (v : Nat) (s : BfdSection),
      interesting_symbol { name := "gcc2_compiled.", value := v, sec := s } = false) ∧
    (∀ sym : Asymbol, sym.sec.sec_code = false → interesting_symbol sym = false) := by
  refine ⟨?_, ?_, ?_, ?_⟩
  · intro sym
    unfold interesting_symbol
    split_ifs with h1 h2 h3 h4 <;> simp_all
  · intro v s
    have hdl : starts_dotL ".Lfoo" = true := rfl
    have hne : (".Lfoo" : String) ≠ "" := by decide
    unfold interesting_symbol
    split_ifs <;> simp_all
  · intro v s
    have hb : boring_symbols.contains "gcc2_compiled." = true := rfl
    unfold interesting_symbol
    split_ifs <;> simp_all
  · intro sym h
    unfold interesting_symbol
    simp [h]

/-- Claim C3 witness: a symbol in a non-code section is dropped. -/
theorem c3_filter_exact_witness :
    interesting_symbol { name := "main", value := 0, sec := sec_data } = false :=
  c3_filter_exact.2.2.2 { name := "main", value := 0, sec := sec_data } (by decide)

/-- Claim C5 (amended): `get_symbol_range` fails exactly when
`start >= limit`, `end > limit`, or `start > end`, where
`limit = (nr_samples + sect_offset) mod 2^32`: the limit is exclusive
for `start` but inclusive for `end`; otherwise it yields the pair
`(start, end)`. -/
theorem c5_range_check :
    ∀ (nr_samples sect_offset : Nat) (syms : List OpBfdSymbol) (sym_idx : Nat),
    let s := syms.getD sym_idx default
    let limit := (nr_samples + sect_offset) % U32
    (get_symbol_range nr_samples sect_offset syms sym_idx = none ↔
      (limit ≤ span_start s ∨ limit < span_end s ∨ span_end s < span_start s)) ∧
    (get_symbol_range nr_samples sect_offset syms sym_idx = some (span_start s, span_end s) ↔
      (span_start s < limit ∧ span_end s ≤ limit ∧ span_start s ≤ span_end s)) := by
  intro nr_samples sect_offset syms sym_idx
  unfold get_symbol_range
  dsimp only
  split_ifs with h1 h2 h3 <;> simp_all

/-- Claim C5 counterexample: a span whose end sits exactly at
`nr_samples + sect_offset` succeeds, although the claim places both
`start` and `end` in the half-open interval `[0, limit)` and so
predicts failure for `end = limit`. -/
theorem c5_counterexample :
    get_symbol_range 4 0 [entry4] 0 = some (0, 4) ∧ ¬ (4 < (4 + 0) % U32) := by
  exact ⟨rfl, by decide⟩

/-- Claim C8: evaluation of the kernel-image section handling.  For a
kernel image with no `.text` section the name lookup yields nothing and
the source dereferences the null pointer (modelled `none`) - there is no
missing-section error path; when `.text` exists its file position
becomes the section adjustment, and a non-kernel image keeps
adjustment 0. -/
theorem c8_missing_section_eval :
    open_bfd_sect_offset [sec_data] true = none ∧
    bfd_get_section_by_name [sec_data] ".text" = none ∧
    open_bfd_sect_offset [sec_data, sec_text_k] true = some 8192 ∧
    open_bfd_sect_offset [sec_data, sec_text_k] false = some 0 :=
  ⟨rfl, rfl, rfl, rfl⟩

/-- Claim C10: `sym_offset` is total with no range check, and computes
the 32-bit unsigned difference `raw_offset - filepos - value`: the
result is below 2^32, adding back `filepos + value` recovers the raw
offset modulo 2^32, and a raw offset smaller than `filepos + value`
wraps to `2^32 + raw_offset - (filepos + value)` instead of failing. -/
theorem c10_sym_offset_wrap :
    ∀ (syms : List OpBfdSymbol) (sym_idx num : Nat),
    let s := (syms.getD sym_idx default).symbol
    sym_offset syms sym_idx num < U32 ∧
    (sym_offset syms sym_idx num + s.sec.filepos + s.value) % U32 = num % U32 ∧
    (num < U32 → s.sec.filepos + s.value < U32 → num < s.sec.filepos + s.value →
      sym_offset syms sym_idx num = U32 + num - (s.sec.filepos + s.value)) := by
  intro syms sym_idx num
  simp only [sym_offset, usub32, U32]
  omega

/-- Claim C10 witness: raw offset 2 against `filepos + value = 12`
wraps to `2^32 - 10`. -/
theorem c10_sym_offset_wrap_witness : sym_offset [entryW] 0 2 = 4294967286 := by
  have h := (c10_sym_offset_wrap [entryW] 0 2).2.2 (by decide) (by decide) (by decide)
  simpa [entryW, secW, U32] using h

/-- Claim C1 counterexample: sizes are computed before deduplication, so
an input with two symbols at the same vma yields a final table with a
gap: the kept collision entry's size still points at the erased entry's
start.  Here `symA`/`symB` collide at vma 16 and `symC` follows at 32;
the built table is `[a (size 0), c (size 16)]` and span end 16 of entry
0 differs from span start 32 of entry 1. -/
theorem c1_contiguity_counterexample :
    get_symbols [symA, symB, symC] 48 [] =
      [{ symbol := symA, vma := 16, size := 0 },
       { symbol := symC, vma := 32, size := 16 }] ∧
    span_end ((get_symbols [symA, symB, symC] 48 []).getD 0 default) ≠
      span_start ((get_symbols [symA, symB, symC] 48 []).getD 1 default) := by
  constructor
  · rfl
  · decide

/-- Claim C1 (amended): sizes are computed on the fully sorted sequence
before deduplication and exclusion, and contiguity holds at that stage:
for every input, every entry's 32-bit span end equals the next entry's
span start, and the last entry's span end equals the image file size
modulo 2^32.  (The final table keeps contiguity only when deduplication
and exclusion erase nothing, as the counterexample shows.) -/
theorem c1_sized_contiguity :
    ∀ (bfd_syms : List Asymbol) (nr_samples : Nat),
    let l := set_sizes nr_samples (stable_sort_syms (extract_symbols bfd_syms))
    (∀ i, i + 1 < l.length →
      span_end (l.getD i default) = span_start (l.getD (i + 1) default)) ∧
    (l ≠ [] → span_end (l.getD (l.length - 1) default) = nr_samples % U32) := by
  intro bfd_syms nr_samples
  set q := stable_sort_syms (extract_symbols bfd_syms) with hq
  constructor
  · intro i hi
    rw [set_sizes_length] at hi
    rw [set_sizes_getD nr_samples q i default (by omega),
        set_sizes_getD nr_samples q (i + 1) default (by omega)]
    have hne : ¬ (i = q.length - 1) := by omega
    simp only [span_end, span_start, symbol_size, if_neg hne]
    have := add_usub32
      ((q.getD i default).symbol.sec.filepos + (q.getD i default).symbol.value)
      (((q.getD (i + 1) default).symbol.value + (q.getD (i + 1) default).symbol.sec.filepos) % U32)
    simp only [usub32, U32] at *
    omega
  · intro hne
    have hlen : 0 < q.length := by
      rcases q with _ | ⟨a, t⟩
      · exact absurd (by simp [set_sizes]) hne
      · simp
    rw [set_sizes_length]
    rw [set_sizes_getD nr_samples q (q.length - 1) default (by omega)]
    simp [span_end, span_start, symbol_size, usub32, U32]
    omega

/-- Claim C1 witness: on the collision input, contiguity does hold at
the sized stage for adjacent entries 0 and 1. -/
theorem c1_sized_contiguity_witness :
    span_end ((set_sizes 48 (stable_sort_syms (extract_symbols [symA, symB, symC]))).getD 0
        default) =
      span_start ((set_sizes 48 (stable_sort_syms (extract_symbols [symA, symB, symC]))).getD 1
        default) :=
  (c1_sized_contiguity [symA, symB, symC] 48).1 0 (by decide)

theorem probe_loop_none_iff (find : Nat → FindRes) (name : String) (pc ms : Nat) :
    ∀ i, probe_loop find name pc ms i = none ↔
      ∀ j, i ≤ j → j < ms → probe_hit (find (pc + j)) name = false := by
  intro i
  induction i using probe_loop.induct find name pc ms with
  | case1 x hx r hhit =>
    rw [probe_loop]
    simp only [dif_pos hx, if_pos hhit]
    constructor
    · intro h; exact absurd h (by simp)
    · intro h
      have := h x (le_refl x) hx
      rw [this] at hhit
      exact absurd hhit (by simp)
  | case2 x hx r hhit ih =>
    rw [probe_loop]
    simp only [dif_pos hx, if_neg hhit]
    rw [ih]
    constructor
    · intro h j hj1 hj2
      rcases Nat.eq_or_lt_of_le hj1 with heq | hlt
      · subst heq; simpa using hhit
      · exact h j hlt hj2
    · intro h j hj1 hj2
      exact h j (by omega) hj2
  | case3 x hx =>
    rw [probe_loop]
    simp only [dif_neg hx]
    constructor
    · intro _ j hj1 hj2; omega
    · intro _; trivial

theorem probe_loop_some_iff (find : Nat → FindRes) (name : String) (pc ms : Nat) :
    ∀ i r, probe_loop find name pc ms i = some r →
      ∃ j, i ≤ j ∧ j < ms ∧ probe_hit (find (pc + j)) name = true ∧ r = find (pc + j) ∧
        ∀ k, i ≤ k → k < j → probe_hit (find (pc + k)) name = false := by
  intro i
  induction i using probe_loop.induct find name pc ms with
  | case1 x hx r hhit =>
    intro r' h
    rw [probe_loop] at h
    simp only [dif_pos hx, if_pos hhit] at h
    exact ⟨x, le_refl x, hx, hhit, (Option.some.inj h).symm,
      fun k hk1 hk2 => absurd (lt_of_le_of_lt hk1 hk2) (lt_irrefl x)⟩
  | case2 x hx r hhit ih =>
    intro r' h
    rw [probe_loop] at h
    simp only [dif_pos hx, if_neg hhit] at h
    obtain ⟨j, hj1, hj2, hj3, hj4, hj5⟩ := ih r' h
    refine ⟨j, by omega, hj2, hj3, hj4, ?_⟩
    intro k hk1 hk2
    rcases Nat.eq_or_lt_of_le hk1 with heq | hlt
    · subst heq; simpa using hhit
    · exact hj5 k hlt hk2
  | case3 x hx =>
    intro r' h
    rw [probe_loop] at h
    simp only [dif_neg hx] at h
    exact absurd h (by simp)

theorem probe_loop_congr (find find' : Nat → FindRes) (name : String) (pc ms : Nat) :
    ∀ i, (∀ a, pc + i ≤ a → a < pc + ms → find a = find' a) →
      probe_loop find name pc ms i = probe_loop find' name pc ms i := by
  intro i
  induction i using probe_loop.induct find name pc ms with
  | case1 x hx r hhit =>
    intro hagree
    have hx' : find (pc + x) = find' (pc + x) := hagree (pc + x) (by omega) (by omega)
    conv_lhs => rw [probe_loop]
    conv_rhs => rw [probe_loop]
    simp only [dif_pos hx, ← hx', if_pos hhit]
  | case2 x hx r hhit ih =>
    intro hagree
    have hx' : find (pc + x) = find' (pc + x) := hagree (pc + x) (by omega) (by omega)
    conv_lhs => rw [probe_loop]
    conv_rhs => rw [probe_loop]
    simp only [dif_pos hx, ← hx', if_neg hhit]
    exact ih (fun a h1 h2 => hagree a (by omega) h2)
  | case3 x hx =>
    intro _
    conv_lhs => rw [probe_loop]
    conv_rhs => rw [probe_loop]
    simp only [dif_neg hx]

theorem probe_hit_found {r : FindRes} {name : String} (h : probe_hit r name = true) :
    r.found = true := by
  simp only [probe_hit, decide_eq_true_eq] at h
  exact h.1

/-- Claim C6 counterexample: the mismatch guard only fires for a
non-null function name (`functionname &&` in the source), so a lookup
result with success, a filename, line 3 and a *null* function name is
accepted - although its function name is not equal to the queried
symbol's name as the claim requires. -/
theorem c6_counterexample :
    get_linenr find_nofn [entryQ] 0 16 = (true, some "f", 3) ∧
    (find_nofn 16).functionname = none ∧ entryQ.symbol.name = "q" :=
  ⟨rfl, rfl, rfl⟩

/-- Claim C6 (amended): the initial lookup's result is accepted iff it
reports success, a non-null filename, and no function name differing
from the queried symbol's name - a result with a null function name
passes the name guard; and whenever the initial lookup reports success,
a non-null filename, a non-zero line number and a differing function
name, the whole query is rejected and returns that failure. -/
theorem c6_name_guard :
    (∀ (r : FindRes) (name : String),
      accept_initial r name = true ↔
        (r.found = true ∧ r.filename ≠ none ∧
          ∀ g, r.functionname = some g → g = name)) ∧
    (∀ (find : Nat → FindRes) (syms : List OpBfdSymbol) (sym_idx offset : Nat) (g : String),
      let s := (syms.getD sym_idx default).symbol
      let pc := sym_offset syms sym_idx offset + s.value
      s.sec.sec_alloc = true →
      pc < s.sec.size →
      (find pc).found = true →
      (find pc).filename ≠ none →
      (find pc).line ≠ 0 →
      (find pc).functionname = some g →
      g ≠ s.name →
      get_linenr find syms sym_idx offset = (false, (find pc).filename, (find pc).line)) := by
  constructor
  · intro r name
    rcases r with ⟨found, fn, fname, line⟩
    unfold accept_initial
    rcases fname with _ | g
    · cases found <;> rcases fn with _ | f <;> simp
    · by_cases hg : g = name
      · subst hg
        cases found <;> rcases fn with _ | f <;> simp
      · cases found <;> rcases fn with _ | f <;> simp_all
  · intro find syms sym_idx offset g
    dsimp only
    intro halloc hpc hfound hfile hline hfn hne
    unfold get_linenr
    dsimp only
    set s := (syms.getD sym_idx default).symbol with hs
    set pc := sym_offset syms sym_idx offset + s.value with hpcdef
    rw [if_neg (by simp [halloc])]
    rw [if_neg (by omega)]
    have hnof : ¬ ((find pc).filename = none ∨ (find pc).found = false) := by
      push_neg
      exact ⟨hfile, by simp [hfound]⟩
    simp only [if_neg hnof]
    rw [if_neg (by simpa using hline)]
    have hacc : accept_initial (find pc) s.name = false := by
      unfold accept_initial
      rw [hfn]
      simp [hne]
    rw [hacc]

/-- Claim C6 witness: a successful lookup with matching data but a
differing function name `g` against queried symbol `q` is rejected,
returning failure with the looked-up filename and line. -/
theorem c6_name_guard_witness :
    get_linenr find_c9 [entryQ] 0 16 = (false, (find_c9 16).filename, (find_c9 16).line) :=
  c6_name_guard.2 find_c9 [entryQ] 0 16 "g" (by decide) (by decide) (by decide)
    (by decide) (by decide) (by decide) (by decide)

/-- Claim C9 counterexample: a query rejected by the function-name
guard with a non-zero line number returns failure together with the
looked-up filename and line number - not an empty filename and line 0
as the claim states. -/
theorem c9_counterexample :
    get_linenr find_c9 [entryQ] 0 16 = (false, some "f", 7) ∧
    some "f" ≠ (some "" : Option String) ∧ (7 : Nat) ≠ 0 :=
  ⟨rfl, by decide, by decide⟩

/-- Claim C9 (amended): a failed query returns either the immediate
rejection value - a null filename (the out-parameters' initial
`filename = 0; linenr = 0`) - or the raw filename and line reported by
the underlying lookup at the original pc: the workaround's re-issued
call overwrites the empty-string normalisation, and the mismatch path
never applies it, so a failure can carry a non-empty filename and a
non-zero line. -/
theorem c9_failure_values :
    ∀ (find : Nat → FindRes) (syms : List OpBfdSymbol) (sym_idx offset : Nat),
    let s := (syms.getD sym_idx default).symbol
    let pc := sym_offset syms sym_idx offset + s.value
    (get_linenr find syms sym_idx offset).1 = false →
    get_linenr find syms sym_idx offset = (false, none, 0) ∨
      ((get_linenr find syms sym_idx offset).2.1 = (find pc).filename ∧
       (get_linenr find syms sym_idx offset).2.2 = (find pc).line) := by
  intro find syms sym_idx offset
  dsimp only
  unfold get_linenr
  dsimp only
  set s := (syms.getD sym_idx default).symbol with hs
  set pc := sym_offset syms sym_idx offset + s.value with hpcdef
  by_cases halloc : s.sec.sec_alloc = false
  · rw [if_pos halloc]
    intro _
    left; rfl
  · rw [if_neg halloc]
    by_cases hsz : s.sec.size ≤ pc
    · rw [if_pos hsz]
      intro _
      left; rfl
    · rw [if_neg hsz]
      by_cases hnof : (find pc).filename = none ∨ (find pc).found = false
      · rw [if_pos hnof, if_pos hnof, if_pos rfl]
        rcases hp : probe_loop find s.name pc
            (if s.sec.size < pc + 16 then s.sec.size - pc else 16) 1 with _ | pr
        · intro _
          right; exact ⟨rfl, rfl⟩
        · obtain ⟨j, _, _, hhit, hr, _⟩ :=
            probe_loop_some_iff find s.name pc
              (if s.sec.size < pc + 16 then s.sec.size - pc else 16) 1 pr hp
          have hprf : pr.found = true := probe_hit_found (hr ▸ hhit)
          intro hfail
          simp [hprf] at hfail
      · rw [if_neg hnof, if_neg hnof]
        by_cases hl0 : (find pc).line = 0
        · rw [if_pos hl0]
          rcases hp : probe_loop find s.name pc
              (if s.sec.size < pc + 16 then s.sec.size - pc else 16) 1 with _ | pr
          · intro _
            right; exact ⟨rfl, rfl⟩
          · obtain ⟨j, _, _, hhit, hr, _⟩ :=
              probe_loop_some_iff find s.name pc
                (if s.sec.size < pc + 16 then s.sec.size - pc else 16) 1 pr hp
            have hprf : pr.found = true := probe_hit_found (hr ▸ hhit)
            intro hfail
            simp [hprf] at hfail
        · rw [if_neg hl0]
          intro _
          right; exact ⟨rfl, rfl⟩

/-- Claim C9 witness: the two immediate rejections do return the empty
result - here a symbol whose pc falls at the section's extent. -/
theorem c9_failure_values_witness :
    get_linenr find_c9 [entryQ] 0 48 = (false, none, 0) ∨
      ((get_linenr find_c9 [entryQ] 0 48).2.1 = (find_c9 48).filename ∧
       (get_linenr find_c9 [entryQ] 0 48).2.2 = (find_c9 48).line) :=
  c9_failure_values find_c9 [entryQ] 0 48 (by decide)

/-- Claim C7: when the initial lookup yields line 0 (or was already a
null-filename/failed lookup), the workaround scans forward probing at
most 16 addresses - the window `pc+1 .. pc+ms-1` has `ms ≤ 16` and is
clipped so that no probe reaches the section's extent; the scan's
outcome depends only on the lookup's values inside that window; the
first probe with a non-zero line and matching function name wins and is
returned immediately; and when the window is exhausted the lookup is
conceptually re-issued at the original address (in this pure model, the
same value) and the query returns the pre-workaround boolean with the
original lookup's raw outputs. -/
theorem c7_prologue_workaround :
    ∀ (find find' : Nat → FindRes) (syms : List OpBfdSymbol) (sym_idx offset : Nat),
    let s := (syms.getD sym_idx default).symbol
    let pc := sym_offset syms sym_idx offset + s.value
    let ms := if s.sec.size < pc + 16 then s.sec.size - pc else 16
    pc < s.sec.size →
    ((ms ≤ 16 ∧ ∀ i, 1 ≤ i → i < ms → pc + i < s.sec.size) ∧
     ((∀ a, pc + 1 ≤ a → a < pc + ms → find a = find' a) →
        probe_loop find s.name pc ms 1 = probe_loop find' s.name pc ms 1) ∧
     (∀ pr, probe_loop find s.name pc ms 1 = some pr →
        ∃ j, 1 ≤ j ∧ j < ms ∧ pr = find (pc + j) ∧
          probe_hit (find (pc + j)) s.name = true ∧
          ∀ k, 1 ≤ k → k < j → probe_hit (find (pc + k)) s.name = false) ∧
     (s.sec.sec_alloc = true →
      ((find pc).filename = none ∨ (find pc).found = false ∨ (find pc).line = 0) →
      (∀ pr, probe_loop find s.name pc ms 1 = some pr →
         get_linenr find syms sym_idx offset = (pr.found, pr.filename, pr.line)) ∧
      (probe_loop find s.name pc ms 1 = none →
         get_linenr find syms sym_idx offset =
           (accept_initial (find pc) s.name, (find pc).filename, (find pc).line)))) := by
  intro find find' syms sym_idx offset
  dsimp only
  set s := (syms.getD sym_idx default).symbol with hs
  set pc := sym_offset syms sym_idx offset + s.value with hpcdef
  set ms := if s.sec.size < pc + 16 then s.sec.size - pc else 16 with hms
  intro hpc
  refine ⟨⟨?_, ?_⟩, ?_, ?_, ?_⟩
  · rw [hms]; split_ifs <;> omega
  · intro i h1 h2
    rw [hms] at h2
    by_cases hc : s.sec.size < pc + 16
    · rw [if_pos hc] at h2; omega
    · rw [if_neg hc] at h2; omega
  · intro hagree
    exact probe_loop_congr find find' s.name pc ms 1 hagree
  · intro pr hp
    obtain ⟨j, hj1, hj2, hj3, hj4, hj5⟩ := probe_loop_some_iff find s.name pc ms 1 pr hp
    exact ⟨j, hj1, hj2, hj4, hj3, hj5⟩
  · intro halloc htrig
    have hln : (if ((find pc).filename = none ∨ (find pc).found = false) then 0
        else (find pc).line) = 0 := by
      by_cases hnof : (find pc).filename = none ∨ (find pc).found = false
      · rw [if_pos hnof]
      · rw [if_neg hnof]
        rcases htrig with h | h | h
        · exact absurd (Or.inl h) hnof
        · exact absurd (Or.inr h) hnof
        · exact h
    constructor
    · intro pr hp
      unfold get_linenr
      dsimp only
      rw [← hs, ← hpcdef, ← hms]
      rw [if_neg (by simp [halloc]), if_neg (by omega), if_pos hln, hp]
    · intro hp
      unfold get_linenr
      dsimp only
      rw [← hs, ← hpcdef, ← hms]
      rw [if_neg (by simp [halloc]), if_neg (by omega), if_pos hln, hp]

/-- Claim C7 witness: on a concrete query whose initial lookup has
line 0, the probe at `pc + 1` wins and its outputs are returned. -/
theorem c7_prologue_workaround_witness :
    get_linenr find_probe [entryQ] 0 16 =
      ((find_probe 17).found, (find_probe 17).filename, (find_probe 17).line) := by
  have hp : probe_loop find_probe "q" 16 16 1 = some (find_probe 17) := by
    rw [probe_loop]
    norm_num [find_probe, probe_hit]
  have h := ((c7_prologue_workaround find_probe find_probe [entryQ] 0 16
    (by decide)).2.2.2 (by decide) (by decide)).1 (find_probe 17)
  exact h (by simpa [entryQ, secA, sym_offset, usub32, U32] using hp)

theorem mem_insert_sym {x y : OpBfdSymbol} {l : List OpBfdSymbol}
    (h : y ∈ insert_sym x l) : y = x ∨ y ∈ l := by
  induction l with
  | nil => simpa [insert_sym] using h
  | cons z zs ih =>
    unfold insert_sym at h
    by_cases hc : symcomp x z
    · rw [if_pos hc] at h
      rcases List.mem_cons.mp h with rfl | h
      · exact Or.inl rfl
      · exact Or.inr h
    · rw [if_neg hc] at h
      rcases List.mem_cons.mp h with rfl | h
      · exact Or.inr (List.mem_cons_self _ _)
      · rcases ih h with h | h
        · exact Or.inl h
        · exact Or.inr (List.mem_cons_of_mem z h)

theorem insert_sym_pairwise {x : OpBfdSymbol} {l : List OpBfdSymbol}
    (h : l.Pairwise (fun a b => a.vma ≤ b.vma)) :
    (insert_sym x l).Pairwise (fun a b => a.vma ≤ b.vma) := by
  induction l with
  | nil => simp [insert_sym]
  | cons y ys ih =>
    rw [List.pairwise_cons] at h
    obtain ⟨hy, hys⟩ := h
    unfold insert_sym
    by_cases hc : symcomp x y
    · rw [if_pos hc]
      have hxy : x.vma < y.vma := by simpa [symcomp] using hc
      refine List.Pairwise.cons ?_ (List.Pairwise.cons hy hys)
      intro z hz
      rcases List.mem_cons.mp hz with rfl | hz
      · omega
      · have := hy z hz
        omega
    · rw [if_neg hc]
      have hyx : y.vma ≤ x.vma := by
        have : ¬ x.vma < y.vma := by simpa [symcomp] using hc
        omega
      refine List.Pairwise.cons ?_ (ih hys)
      intro z hz
      rcases mem_insert_sym hz with rfl | hz
      · exact hyx
      · exact hy z hz

theorem stable_sort_pairwise_aux :
    ∀ (l acc : List OpBfdSymbol),
    acc.Pairwise (fun a b => a.vma ≤ b.vma) →
    (l.foldl (fun acc x => insert_sym x acc) acc).Pairwise (fun a b => a.vma ≤ b.vma) := by
  intro l
  induction l with
  | nil => intro acc h; simpa using h
  | cons x xs ih => intro acc h; exact ih _ (insert_sym_pairwise h)

theorem stable_sort_pairwise (l : List OpBfdSymbol) :
    (stable_sort_syms l).Pairwise (fun a b => a.vma ≤ b.vma) :=
  stable_sort_pairwise_aux l [] (by simp)

theorem set_sizes_map_key (nr : Nat) (q : List OpBfdSymbol) :
    (set_sizes nr q).map (fun s => (s.symbol, s.vma)) = q.map (fun s => (s.symbol, s.vma)) := by
  apply List.ext_getElem
  · simp [set_sizes_length]
  · intro i h1 h2
    have h3 : i < q.length := by simpa using h2
    simp [set_sizes, list_getD_eq q i default h3, List.getElem?_eq_getElem h3]

theorem pairwise_le_of_map_key {l q : List OpBfdSymbol}
    (h : l.map (fun s => (s.symbol, s.vma)) = q.map (fun s => (s.symbol, s.vma)))
    (hq : q.Pairwise (fun a b => a.vma ≤ b.vma)) :
    l.Pairwise (fun a b => a.vma ≤ b.vma) := by
  have h1 : (q.map (fun s => (s.symbol, s.vma))).Pairwise (fun p r => p.2 ≤ r.2) := by
    rw [List.pairwise_map]
    exact hq
  rw [← h, List.pairwise_map] at h1
  exact h1

theorem mem_dedup_from {x a : OpBfdSymbol} {l : List OpBfdSymbol}
    (h : x ∈ dedup_from a l) : x ∈ l := by
  induction l generalizing a with
  | nil => simp [dedup_from] at h
  | cons b rest ih =>
    unfold dedup_from at h
    by_cases hc : b.vma = a.vma
    · rw [if_pos hc] at h
      exact List.mem_cons_of_mem b (ih h)
    · rw [if_neg hc] at h
      rcases List.mem_cons.mp h with rfl | h
      · exact List.mem_cons_self _ _
      · exact List.mem_cons_of_mem b (ih h)

theorem dedup_from_pairwise_lt :
    ∀ (l : List OpBfdSymbol) (a : OpBfdSymbol),
    (a :: l).Pairwise (fun u w => u.vma ≤ w.vma) →
    (a :: dedup_from a l).Pairwise (fun u w => u.vma < w.vma) := by
  intro l
  induction l with
  | nil => intro a _; simp [dedup_from]
  | cons b rest ih =>
    intro a h
    rw [List.pairwise_cons] at h
    obtain ⟨ha, hbr⟩ := h
    unfold dedup_from
    by_cases hc : b.vma = a.vma
    · rw [if_pos hc]
      apply ih a
      rw [List.pairwise_cons]
      exact ⟨fun z hz => ha z (List.mem_cons_of_mem b hz), (List.pairwise_cons.mp hbr).2⟩
    · rw [if_neg hc]
      have hab : a.vma < b.vma := by
        have := ha b (List.mem_cons_self _ _)
        omega
      rw [List.pairwise_cons]
      refine ⟨?_, ih b hbr⟩
      intro z hz
      rcases List.mem_cons.mp hz with rfl | hz
      · exact hab
      · have hzr : z ∈ rest := mem_dedup_from hz
        have := (List.pairwise_cons.mp hbr).1 z hzr
        omega

theorem dedup_vma_pairwise_lt {l : List OpBfdSymbol}
    (h : l.Pairwise (fun u w => u.vma ≤ w.vma)) :
    (dedup_vma l).Pairwise (fun u w => u.vma < w.vma) := by
  cases l with
  | nil => simp [dedup_vma]
  | cons a rest => exact dedup_from_pairwise_lt rest a h

/-- Claim C2: for every input symbol set - including inputs with many
colliding virtual addresses - the table built by get_symbols (filter,
stable sort, deduplication, exclusion) is strictly ascending by vma,
and in particular no two entries share a vma. -/
theorem c2_strict_ascending :
    ∀ (bfd_syms : List Asymbol) (nr_samples : Nat) (excluded : List String),
    (get_symbols bfd_syms nr_samples excluded).Pairwise (fun a b => a.vma < b.vma) ∧
    (get_symbols bfd_syms nr_samples excluded).Pairwise (fun a b => a.vma ≠ b.vma) := by
  intro bs nr excl
  have h1 := stable_sort_pairwise (extract_symbols bs)
  have h2 : (set_sizes nr (stable_sort_syms (extract_symbols bs))).Pairwise
      (fun a b => a.vma ≤ b.vma) :=
    pairwise_le_of_map_key (set_sizes_map_key nr _) h1
  have h3 := dedup_vma_pairwise_lt h2
  have h4 : (get_symbols bs nr excl).Pairwise (fun a b => a.vma < b.vma) := by
    unfold get_symbols exclude_symbols
    exact h3.filter _
  exact ⟨h4, h4.imp (fun h => Nat.ne_of_lt h)⟩

theorem filter_insert_sym (v : Nat) (x : OpBfdSymbol) :
    ∀ (l : List OpBfdSymbol), l.Pairwise (fun a b => a.vma ≤ b.vma) →
    (insert_sym x l).filter (fun s => decide (s.vma = v)) =
      if x.vma = v then l.filter (fun s => decide (s.vma = v)) ++ [x]
      else l.filter (fun s => decide (s.vma = v)) := by
  intro l
  induction l with
  | nil =>
    intro _
    by_cases hv : x.vma = v
    · simp [insert_sym, hv]
    · simp [insert_sym, hv]
  | cons y ys ih =>
    intro h
    obtain ⟨hy, hys⟩ := List.pairwise_cons.mp h
    unfold insert_sym
    by_cases hc : symcomp x y
    · rw [if_pos hc]
      have hxy : x.vma < y.vma := by simpa [symcomp] using hc
      by_cases hv : x.vma = v
      · have hemp : (y :: ys).filter (fun s => decide (s.vma = v)) = [] := by
          rw [List.filter_eq_nil_iff]
          intro z hz
          rcases List.mem_cons.mp hz with rfl | hz
          · simp
            omega
          · have := hy z hz
            simp
            omega
        simp [List.filter_cons, hv, hemp]
      · simp [List.filter_cons, hv]
    · rw [if_neg hc]
      rw [List.filter_cons, List.filter_cons, ih hys]
      by_cases hv : x.vma = v <;> by_cases hyv : y.vma = v <;> simp [hv, hyv]

theorem filter_foldl_insert (v : Nat) :
    ∀ (l acc : List OpBfdSymbol), acc.Pairwise (fun a b => a.vma ≤ b.vma) →
    (l.foldl (fun acc x => insert_sym x acc) acc).filter (fun s => decide (s.vma = v)) =
      acc.filter (fun s => decide (s.vma = v)) ++ l.filter (fun s => decide (s.vma = v)) := by
  intro l
  induction l with
  | nil =>
    intro acc h
    simp
  | cons x xs ih =>
    intro acc h
    rw [List.foldl_cons, ih _ (insert_sym_pairwise h), filter_insert_sym v x acc h,
      List.filter_cons]
    by_cases hv : x.vma = v <;> simp [hv]

theorem filter_stable_sort (v : Nat) (l : List OpBfdSymbol) :
    (stable_sort_syms l).filter (fun s => decide (s.vma = v)) =
      l.filter (fun s => decide (s.vma = v)) := by
  have h := filter_foldl_insert v l [] (by simp)
  simpa [stable_sort_syms] using h

theorem filter_dedup_from (v : Nat) :
    ∀ (l : List OpBfdSymbol) (a : OpBfdSymbol),
    (a :: l).Pairwise (fun u w => u.vma ≤ w.vma) →
    (a :: dedup_from a l).filter (fun s => decide (s.vma = v)) =
      ((a :: l).filter (fun s => decide (s.vma = v))).take 1 := by
  intro l
  induction l with
  | nil =>
    intro a _
    by_cases hv : a.vma = v <;> simp [dedup_from, List.filter_cons, hv]
  | cons b rest ih =>
    intro a h
    obtain ⟨ha, hbr⟩ := List.pairwise_cons.mp h
    unfold dedup_from
    by_cases hc : b.vma = a.vma
    · rw [if_pos hc]
      have har : (a :: rest).Pairwise (fun u w => u.vma ≤ w.vma) :=
        List.pairwise_cons.mpr ⟨fun z hz => ha z (List.mem_cons_of_mem b hz),
          (List.pairwise_cons.mp hbr).2⟩
      rw [ih a har]
      by_cases hav : a.vma = v
      · have hbv : b.vma = v := by omega
        simp [List.filter_cons, hav, hbv]
      · have hbv : ¬ b.vma = v := by omega
        simp [List.filter_cons, hav, hbv]
    · rw [if_neg hc]
      have hib := ih b hbr
      by_cases hav : a.vma = v
      · have hab : a.vma < b.vma := by
          have := ha b (List.mem_cons_self _ _)
          omega
        have hemp : (b :: dedup_from b rest).filter (fun s => decide (s.vma = v)) = [] := by
          rw [List.filter_eq_nil_iff]
          intro z hz
          rcases List.mem_cons.mp hz with rfl | hz
          · simp
            omega
          · have hzr := mem_dedup_from hz
            have := (List.pairwise_cons.mp hbr).1 z hzr
            simp
            omega
        have hLHS : (a :: b :: dedup_from b rest).filter (fun s => decide (s.vma = v)) =
            [a] := by
          rw [List.filter_cons, if_pos (by simp [hav]), hemp]
        have hRHS : (((a :: b :: rest).filter (fun s => decide (s.vma = v)))).take 1 =
            [a] := by
          rw [List.filter_cons, if_pos (by simp [hav])]
          simp
        rw [hLHS, hRHS]
      · have hcond : ¬ (decide (a.vma = v) = true) := by simp [hav]
        conv_lhs => rw [List.filter_cons]
        conv_rhs => rw [List.filter_cons]
        simp only [if_neg hcond]
        exact hib

theorem dedup_keeps_first (v : Nat) {l : List OpBfdSymbol}
    (h : l.Pairwise (fun u w => u.vma ≤ w.vma)) :
    (dedup_vma l).filter (fun s => decide (s.vma = v)) =
      (l.filter (fun s => decide (s.vma = v))).take 1 := by
  cases l with
  | nil => simp [dedup_vma]
  | cons a rest => exact filter_dedup_from v rest a h

theorem filter_map_symbol_eq {l q : List OpBfdSymbol}
    (h : l.map (fun s => (s.symbol, s.vma)) = q.map (fun s => (s.symbol, s.vma))) (v : Nat) :
    (l.filter (fun s => decide (s.vma = v))).map (fun s => s.symbol) =
      (q.filter (fun s => decide (s.vma = v))).map (fun s => s.symbol) := by
  induction l generalizing q with
  | nil =>
    cases q with
    | nil => rfl
    | cons b bs => simp at h
  | cons a as ih =>
    cases q with
    | nil => simp at h
    | cons b bs =>
      simp only [List.map_cons, List.cons.injEq, Prod.mk.injEq] at h
      obtain ⟨⟨hsym, hvma⟩, htl⟩ := h
      rw [List.filter_cons, List.filter_cons]
      by_cases hav : a.vma = v
      · have hbv : b.vma = v := by rw [← hvma]; exact hav
        simp [hav, hbv, hsym, ih htl]
      · have hbv : ¬ b.vma = v := by rw [← hvma]; exact hav
        simp [hav, hbv, ih htl]

/-- Claim C4: the stable sort keeps equal-vma entries in extraction
order and the dedup scan deletes the later one of each adjacent
equal-address pair, so for every vma the surviving entry is exactly the
*first* filtered symbol with that vma in extraction order (the filtered
sequence restricted to a vma, after sort, size computation and dedup,
is its first element); and `symbol_index` returns `none` exactly when
no entry bears the name, and otherwise the index of the *first* entry
with the name. -/
theorem c4_dedup_keeps_first :
    (∀ (bfd_syms : List Asymbol) (nr_samples v : Nat),
      ((dedup_vma (set_sizes nr_samples (stable_sort_syms (extract_symbols bfd_syms)))).filter
          (fun s => decide (s.vma = v))).map (fun s => s.symbol) =
        (((extract_symbols bfd_syms).filter (fun s => decide (s.vma = v))).map
          (fun s => s.symbol)).take 1) ∧
    (∀ (syms : List OpBfdSymbol) (name : String),
      symbol_index syms name = none ↔ ∀ s ∈ syms, s.symbol.name ≠ name) ∧
    (∀ (syms : List OpBfdSymbol) (name : String) (i : Nat),
      symbol_index syms name = some i →
        i < syms.length ∧ (syms.getD i default).symbol.name = name ∧
          ∀ j, j < i → (syms.getD j default).symbol.name ≠ name) := by
  refine ⟨?_, ?_, ?_⟩
  · intro bs nr v
    have hq : (stable_sort_syms (extract_symbols bs)).Pairwise
        (fun a b => a.vma ≤ b.vma) := stable_sort_pairwise _
    have hl : (set_sizes nr (stable_sort_syms (extract_symbols bs))).Pairwise
        (fun a b => a.vma ≤ b.vma) :=
      pairwise_le_of_map_key (set_sizes_map_key nr _) hq
    rw [dedup_keeps_first v hl, ← List.map_take, List.map_take]
    rw [filter_map_symbol_eq (set_sizes_map_key nr _) v]
    rw [filter_stable_sort v (extract_symbols bs), List.map_take]
  · intro syms name
    induction syms with
    | nil => simp [symbol_index]
    | cons s rest ih =>
      unfold symbol_index
      by_cases hs : s.symbol.name = name
      · simp only [if_pos hs]
        constructor
        · intro h
          exact absurd h (by simp)
        · intro h
          exact absurd hs (h s (List.mem_cons_self _ _))
      · simp only [if_neg hs]
        rw [Option.map_eq_none']
        rw [ih]
        constructor
        · intro h z hz
          rcases List.mem_cons.mp hz with rfl | hz
          · exact hs
          · exact h z hz
        · intro h z hz
          exact h z (List.mem_cons_of_mem s hz)
  · intro syms name
    induction syms with
    | nil =>
      intro i h
      simp [symbol_index] at h
    | cons s rest ih =>
      intro i h
      unfold symbol_index at h
      by_cases hs : s.symbol.name = name
      · rw [if_pos hs] at h
        have h0 : 0 = i := Option.some.inj h
        subst h0
        exact ⟨by simp, by simpa using hs, fun j hj => absurd hj (by omega)⟩
      · rw [if_neg hs] at h
        rcases hrec : symbol_index rest name with _ | k
        · rw [hrec] at h
          simp at h
        · rw [hrec] at h
          simp only [Option.map_some'] at h
          have hk : k + 1 = i := Option.some.inj h
          subst hk
          obtain ⟨h1, h2, h3⟩ := ih k hrec
          refine ⟨by simp; omega, by simpa using h2, ?_⟩
          intro j hj
          cases j with
          | zero => simpa using hs
          | succ m =>
            have := h3 m (by omega)
            simpa using this

/-- Claim C4 witness: in a two-entry table whose second entry is the
only one named `s`, `symbol_index` returns index 1, the first (and
only) entry with that name. -/
theorem c4_dedup_keeps_first_witness :
    1 < ([entryQ, entry4] : List OpBfdSymbol).length ∧
    (([entryQ, entry4] : List OpBfdSymbol).getD 1 default).symbol.name = "s" ∧
    ∀ j, j < 1 → (([entryQ, entry4] : List OpBfdSymbol).getD j default).symbol.name ≠ "s" :=
  c4_dedup_keeps_first.2.2 [entryQ, entry4] "s" 1 (by decide)
